import Mathlib

/-!
Verification of the random equation-set generator and evaluator of
`src/datagen.py` (class `Equations`).

The class builds, per equation, a random sum of products of nonlinearities
applied to state variables, keeps a parallel list of symbolic strings, and
exposes a pure `__call__(t, y)` evaluator meant to be handed to an ODE
solver.

Embedding notes, definition by definition:

* A Term slot in the Python code is either the float `1.0` (from
  `np.ones(n_vars).tolist()`) or a non-empty Python list of nonlinearity
  *function objects* `self.non_lins[k]`.  Since the palette `non_lins` is
  immutable for the life of the object, a stored function object is
  determined by its palette index `k`; we store the index and resolve it
  through the same palette at evaluation time (`nls.get? k`), which is
  observationally identical.  The identity marker `1.0` becomes `none`.
  The evaluator's test `element != 1.0` is exactly the `none`/`some` split:
  a Python list never equals `1.0`, and `1.0 != 1.0` is false.

* The jax pseudo-random stream is abstracted by the *outcomes* of its
  draws.  One construction consumes, in order: the vector
  `n_sum_terms = randint(key, (n_eqs,), 1, max_sum_terms+1)`, and then, per
  addend, one `split` producing a subkey from which are drawn
  `n_mult_terms ∈ [1, max_mult_terms]`, `n_mult_terms` nonlinearity indices
  in `[0, len(non_lins))` and `n_mult_terms` variable indices in
  `[0, n_vars)`.  An `AddendDraw` records the two index lists of one
  addend (their common length is the drawn `n_mult_terms[0]`); an `EqDraw`
  is the list of addend draws of one equation (its length is the drawn
  `n_sum_terms[i]`); a draw stream `ds : Nat → EqDraw` gives equation `i`
  its draws.  jax guarantees the bounds recorded in the `Valid`
  predicates whenever the configuration is sane; since jax `randint` is a
  pure function of the key, fixing the seed fixes the whole stream.

* Python runtime errors (IndexError on `y[k]`) are modelled by `Option`:
  `none` is an uncaught exception propagating out of `__call__`.
-/

namespace Datagen

/-- One slot of a Term: `none` is the identity marker `1.0`; `some l` is the
ordered list of palette indices of the nonlinearities applied to this
variable (the Python code stores the function objects `non_lins[k]`
themselves; the palette being immutable, the index determines the object). -/
abbrev Slot := Option (List Nat)

/-- A Term (one addend): one slot per state variable, as built by
`addend = np.ones(self.n_vars).tolist()` and then overwritten groupwise. -/
abbrev Term := List Slot

/-- An equation: the ordered list of its addends. -/
abbrev Equation := List Term

/-- Outcome of the three correlated draws of one addend: `nlIdxs` is
`non_lins_idxs`, `varIdxs` is `var_to_be_applied_idxs`; both have length
`n_mult_terms[0]`, which is therefore not stored separately. -/
structure AddendDraw where
  nlIdxs : List Nat
  varIdxs : List Nat
  deriving DecidableEq, Repr

/-- What jax `randint` guarantees for the draws of one addend when the
configuration is sane: both arrays have the common drawn length
`n_mult_terms[0] ∈ [1, max_mult_terms]`, nonlinearity indices lie below the
palette size `K = len(non_lins)` and variable indices below `n_vars`. -/
abbrev AddendDraw.Valid (maxMult K nVars : Nat) (d : AddendDraw) : Prop :=
  d.nlIdxs.length = d.varIdxs.length ∧
  1 ≤ d.varIdxs.length ∧ d.varIdxs.length ≤ maxMult ∧
  (∀ k ∈ d.nlIdxs, k < K) ∧ (∀ j ∈ d.varIdxs, j < nVars)

/-- Draws of one equation: one `AddendDraw` per addend; the list length is
the drawn addend count `n_sum_terms[i]`. -/
abbrev EqDraw := List AddendDraw

/-- jax guarantees `n_sum_terms[i] ∈ [1, max_sum_terms]` and valid
per-addend draws. -/
abbrev EqDraw.Valid (maxSum maxMult K nVars : Nat) (ed : EqDraw) : Prop :=
  1 ≤ ed.length ∧ ed.length ≤ maxSum ∧
  ∀ d ∈ ed, d.Valid maxMult K nVars

/-- A draw stream: the construction loop consumes `ds i` while building
equation `i` (only `i < n_eqs` is ever read). -/
abbrev DrawStream := Nat → EqDraw

/-- Validity of the portion of the stream the construction reads. -/
abbrev DrawStream.Valid (nEqs maxSum maxMult K nVars : Nat)
    (ds : DrawStream) : Prop :=
  ∀ i < nEqs, (ds i).Valid maxSum maxMult K nVars

/-- `idxs = non_lins_idxs[np.where(var_to_be_applied_idxs == j)]`: the
nonlinearity indices drawn at the positions where the variable draw hit
`j`, in draw order (the two arrays pair positionally). -/
def groupAt (nlIdxs varIdxs : List Nat) (j : Nat) : List Nat :=
  (varIdxs.zip nlIdxs).filterMap (fun p => if p.1 = j then some p.2 else none)

/-- The Term built for one addend: start from `np.ones(n_vars)` (all
identity) and set slot `j` to the grouped nonlinearity indices for every
`j` in `set(var_to_be_applied_idxs)`. -/
def buildTerm (nVars : Nat) (d : AddendDraw) : Term :=
  (List.range nVars).map (fun j =>
    if j ∈ d.varIdxs then some (groupAt d.nlIdxs d.varIdxs j) else none)

/-- The Term list of equation `i`, appended addend by addend. -/
def buildEquation (nVars : Nat) (ed : EqDraw) : Equation :=
  ed.map (buildTerm nVars)

/-- `sym_addend`: for each distinct drawn variable index `j` (CPython
iterates `list(set(...))` of small naturals in increasing order), for each
grouped nonlinearity index `k`, append `sym_non_lins[k] + "(y_{j+1})"`. -/
def symAddend (symNls : List String) (nVars : Nat) (d : AddendDraw) : String :=
  String.join ((((List.range nVars).filter (fun j => j ∈ d.varIdxs)).map (fun j =>
    String.join ((groupAt d.nlIdxs d.varIdxs j).map (fun k =>
      symNls.getD k "" ++ "(y_\x7b" ++ toString (j + 1) ++ "\x7d)")))))

/-- `sym_eq`: prefix `f_{i+1} = `, append each addend's string followed by
`" + "`, and drop the trailing three characters (`sym_eq[:-3]`). -/
def symEquation (symNls : List String) (nVars i : Nat) (ed : EqDraw) : String :=
  (("f_\x7b" ++ toString (i + 1) ++ "\x7d = ") ++
    String.join (ed.map (fun d => symAddend symNls nVars d ++ " + "))).dropRight 3

/-- If `sym_non_lins` is `None`, synthesize `\text{nl}_{i+1}` for each
palette entry. -/
def resolveSymNls (symNls? : Option (List String)) (K : Nat) : List String :=
  match symNls? with
  | none => (List.range K).map (fun i => "\\text\x7bnl\x7d_" ++ toString (i + 1))
  | some l => l

/-- The state of a constructed `Equations` object. -/
structure Equations (α : Type) where
  n_vars : Nat
  n_eqs : Nat
  max_sum_terms : Nat
  max_mult_terms : Nat
  non_lins : List (α → α)
  sym_non_lins : List String
  equations : List Equation
  sym_expr : List String

/-- `Equations.__init__`: store the configuration, resolve the symbolic
names, and build the `n_eqs` equations and their strings from the draw
stream.  The Python constructor performs no validation of the
configuration: it is total. -/
def Equations.make {α : Type} (n_vars n_eqs max_sum_terms max_mult_terms : Nat)
    (non_lins : List (α → α)) (sym_non_lins : Option (List String))
    (ds : DrawStream) : Equations α :=
  let symNls := resolveSymNls sym_non_lins non_lins.length
  { n_vars := n_vars
    n_eqs := n_eqs
    max_sum_terms := max_sum_terms
    max_mult_terms := max_mult_terms
    non_lins := non_lins
    sym_non_lins := symNls
    equations := (List.range n_eqs).map (fun i => buildEquation n_vars (ds i))
    sym_expr := (List.range n_eqs).map (fun i => symEquation symNls n_vars i (ds i)) }

/-- `Equations.__getitem__`: the pair (Term list of equation `idx`, its
symbolic string); Python raises IndexError out of range, modelled by
`Option`. -/
def Equations.getItem {α : Type} (s : Equations α) (idx : Nat) :
    Option Equation × Option String :=
  (s.equations.get? idx, s.sym_expr.get? idx)

/-- `func_idxs = [k for k, element in enumerate(term) if element != 1.0]`,
fused with the slot lookup `self.equations[i][j][k]`: the indices (from
`i₀`) of the non-identity slots, each paired with its index list. -/
def enumSlots (i₀ : Nat) : Term → List (Nat × List Nat)
  | [] => []
  | none :: rest => enumSlots (i₀ + 1) rest
  | some l :: rest => (i₀, l) :: enumSlots (i₀ + 1) rest

/-- `for func in slot: addend *= func(y[k])`: multiply `acc` by each
nonlinearity applied to `y[k]`, resolving the function through the palette;
an out-of-range `y[k]` is Python's IndexError (`none`). -/
def applyFns {α : Type} [Mul α] (nls : List (α → α)) (y : List α) (k : Nat) :
    List Nat → α → Option α
  | [], acc => some acc
  | fi :: rest, acc => do
      let f ← nls.get? fi
      let v ← y.get? k
      applyFns nls y k rest (acc * f v)

/-- `for k in func_idxs: ...`: fold `applyFns` over the non-identity
slots. -/
def evalSlots {α : Type} [Mul α] (nls : List (α → α)) (y : List α) :
    List (Nat × List Nat) → α → Option α
  | [], acc => some acc
  | (k, fns) :: rest, acc => do
      let acc' ← applyFns nls y k fns acc
      evalSlots nls y rest acc'

/-- One addend's value: `addend = 1` then the two nested loops. -/
def evalTerm {α : Type} [Mul α] [One α] (nls : List (α → α)) (y : List α)
    (tm : Term) : Option α :=
  evalSlots nls y (enumSlots 0 tm) 1

/-- `eq = 0` then `eq += addend` over the addends. -/
def evalAddends {α : Type} [Mul α] [One α] [Add α] (nls : List (α → α))
    (y : List α) : List Term → α → Option α
  | [], acc => some acc
  | tm :: rest, acc => do
      let v ← evalTerm nls y tm
      evalAddends nls y rest (acc + v)

/-- The value of one equation at state `y`. -/
def evalEquation {α : Type} [Mul α] [One α] [Add α] [Zero α]
    (nls : List (α → α)) (y : List α) (eq : Equation) : Option α :=
  evalAddends nls y eq 0

/-- `for i in range(self.n_eqs): ... f.append(eq)`: evaluate
`self.equations[i]` for each listed index, collecting the results. -/
def evalRange {α : Type} [Mul α] [One α] [Add α] [Zero α]
    (nls : List (α → α)) (eqs : List Equation) (y : List α) :
    List Nat → Option (List α)
  | [] => some []
  | i :: rest => do
      let eq ← eqs.get? i
      let v ← evalEquation nls y eq
      let vs ← evalRange nls eqs y rest
      pure (v :: vs)

/-- `Equations.__call__(t, y)`: the Python body reads only the attributes
`n_eqs`, `equations` and `non_lins` (the stored function objects), binds
only local variables and assigns no attribute, so it is a pure function of
the state; `t` is received and never used. -/
def Equations.call {α : Type} [Mul α] [One α] [Add α] [Zero α]
    (s : Equations α) (t : α) (y : List α) : Option (List α) :=
  evalRange s.non_lins s.equations y (List.range s.n_eqs)

/-- Palette lookup with an (unreachable under validity) identity default,
used only to *state* specification values totally. -/
def fnAt {α : Type} (nls : List (α → α)) (fi : Nat) : α → α :=
  nls.getD fi (fun x => x)

/-- Specification value of one Term: the product over its non-identity
slots of the products of the slot's nonlinearities applied to the slot's
variable, in stored order. -/
def termValue {α : Type} [Semiring α] (nls : List (α → α)) (y : List α)
    (tm : Term) : α :=
  ((enumSlots 0 tm).map (fun p =>
    (p.2.map (fun fi => fnAt nls fi (y.getD p.1 0))).prod)).prod

/-- Specification value of one equation: the sum of its Terms' values. -/
def eqValue {α : Type} [Semiring α] (nls : List (α → α)) (y : List α)
    (eq : Equation) : α :=
  (eq.map (termValue nls y)).sum

/-! Helper lemmas about list access and the evaluator's loops. -/

theorem get?_eq_some_getD {α : Type} (l : List α) (k : Nat) (d : α)
    (h : k < l.length) : l.get? k = some (l.getD k d) := by
  induction l generalizing k with
  | nil => simp at h
  | cons a as ih =>
    cases k with
    | zero => simp
    | succ m =>
      simp only [List.get?_cons_succ, List.getD_cons_succ]
      exact ih m (by simpa using Nat.lt_of_succ_lt_succ h)

theorem applyFns_eq_some {α : Type} [Semiring α] (nls : List (α → α))
    (y : List α) (k : Nat) (fns : List Nat) (acc : α)
    (hk : k < y.length) (hf : ∀ fi ∈ fns, fi < nls.length) :
    applyFns nls y k fns acc =
      some (acc * (fns.map (fun fi => fnAt nls fi (y.getD k 0))).prod) := by
  induction fns generalizing acc with
  | nil => simp [applyFns]
  | cons fi rest ih =>
    have h1 : nls.get? fi = some (fnAt nls fi) :=
      get?_eq_some_getD nls fi (fun x => x) (hf fi (List.mem_cons_self fi rest))
    have h2 : y.get? k = some (y.getD k 0) := get?_eq_some_getD y k 0 hk
    simp only [applyFns, h1, h2, Option.bind_eq_bind, Option.some_bind]
    rw [ih _ (fun g hg => hf g (List.mem_cons_of_mem fi hg))]
    simp [mul_assoc]

theorem evalSlots_eq_some {α : Type} [Semiring α] (nls : List (α → α))
    (y : List α) (ps : List (Nat × List Nat)) (acc : α)
    (h : ∀ p ∈ ps, p.1 < y.length ∧ ∀ fi ∈ p.2, fi < nls.length) :
    evalSlots nls y ps acc =
      some (acc * (ps.map (fun p =>
        (p.2.map (fun fi => fnAt nls fi (y.getD p.1 0))).prod)).prod) := by
  induction ps generalizing acc with
  | nil => simp [evalSlots]
  | cons p rest ih =>
    obtain ⟨k, fns⟩ := p
    obtain ⟨hk, hf⟩ := h (k, fns) (List.mem_cons_self _ _)
    simp only [evalSlots, applyFns_eq_some nls y k fns acc hk hf,
      Option.bind_eq_bind, Option.some_bind]
    rw [ih _ (fun q hq => h q (List.mem_cons_of_mem _ hq))]
    simp [mul_assoc]

theorem evalTerm_eq_some {α : Type} [Semiring α] (nls : List (α → α))
    (y : List α) (tm : Term)
    (h : ∀ p ∈ enumSlots 0 tm, p.1 < y.length ∧ ∀ fi ∈ p.2, fi < nls.length) :
    evalTerm nls y tm = some (termValue nls y tm) := by
  rw [evalTerm, evalSlots_eq_some nls y _ 1 h, termValue, one_mul]

theorem evalAddends_eq_some {α : Type} [Semiring α] (nls : List (α → α))
    (y : List α) (tms : List Term) (acc : α)
    (h : ∀ tm ∈ tms, ∀ p ∈ enumSlots 0 tm,
      p.1 < y.length ∧ ∀ fi ∈ p.2, fi < nls.length) :
    evalAddends nls y tms acc =
      some (acc + (tms.map (termValue nls y)).sum) := by
  induction tms generalizing acc with
  | nil => simp [evalAddends]
  | cons tm rest ih =>
    simp only [evalAddends,
      evalTerm_eq_some nls y tm (h tm (List.mem_cons_self _ _)),
      Option.bind_eq_bind, Option.some_bind]
    rw [ih _ (fun q hq => h q (List.mem_cons_of_mem _ hq))]
    simp [add_assoc]

theorem evalEquation_eq_some {α : Type} [Semiring α] (nls : List (α → α))
    (y : List α) (eq : Equation)
    (h : ∀ tm ∈ eq, ∀ p ∈ enumSlots 0 tm,
      p.1 < y.length ∧ ∀ fi ∈ p.2, fi < nls.length) :
    evalEquation nls y eq = some (eqValue nls y eq) := by
  rw [evalEquation, evalAddends_eq_some nls y eq 0 h, eqValue, zero_add]

theorem evalRange_eq_some {α : Type} [Semiring α] (nls : List (α → α))
    (eqs : List Equation) (y : List α) (idxs : List Nat) (E : Nat → Equation)
    (hE : ∀ i ∈ idxs, eqs.get? i = some (E i))
    (h : ∀ i ∈ idxs, ∀ tm ∈ E i, ∀ p ∈ enumSlots 0 tm,
      p.1 < y.length ∧ ∀ fi ∈ p.2, fi < nls.length) :
    evalRange nls eqs y idxs = some (idxs.map (fun i => eqValue nls y (E i))) := by
  induction idxs with
  | nil => simp [evalRange]
  | cons i rest ih =>
    simp only [evalRange, hE i (List.mem_cons_self _ _),
      evalEquation_eq_some nls y (E i) (h i (List.mem_cons_self _ _)),
      Option.bind_eq_bind, Option.some_bind]
    rw [ih (fun j hj => hE j (List.mem_cons_of_mem _ hj))
      (fun j hj => h j (List.mem_cons_of_mem _ hj))]
    simp

/-! Characterization of the non-identity slots of a generated Term. -/

theorem mem_enumSlots {tm : Term} {i₀ : Nat} {p : Nat × List Nat} :
    p ∈ enumSlots i₀ tm ↔
      ∃ m, m < tm.length ∧ p.1 = i₀ + m ∧ tm.get? m = some (some p.2) := by
  induction tm generalizing i₀ with
  | nil => simp [enumSlots]
  | cons sl rest ih =>
    cases sl with
    | none =>
      rw [enumSlots, ih]
      constructor
      · rintro ⟨m, hm, hp, hg⟩
        exact ⟨m + 1, by simpa using hm, by omega, by simpa using hg⟩
      · rintro ⟨m, hm, hp, hg⟩
        cases m with
        | zero => simp at hg
        | succ m' =>
          exact ⟨m', by simpa using hm, by omega, by simpa using hg⟩
    | some l =>
      rw [enumSlots]
      constructor
      · intro hp
        rcases List.mem_cons.1 hp with h | h
        · exact ⟨0, by simp, by simp [h], by simp [h]⟩
        · rcases ih.1 h with ⟨m, hm, hp1, hg⟩
          exact ⟨m + 1, by simpa using hm, by omega, by simpa using hg⟩
      · rintro ⟨m, hm, hp1, hg⟩
        cases m with
        | zero =>
          simp only [List.get?_cons_zero, Option.some.injEq] at hg
          apply List.mem_cons.2
          left
          obtain ⟨p1, p2⟩ := p
          simp only at hp1 hg
          simp [hp1, ← hg]
        | succ m' =>
          apply List.mem_cons.2
          right
          exact ih.2 ⟨m', by simpa using hm, by omega, by simpa using hg⟩

theorem mem_enumSlots_buildTerm {nVars : Nat} {d : AddendDraw}
    {p : Nat × List Nat} :
    p ∈ enumSlots 0 (buildTerm nVars d) ↔
      p.1 < nVars ∧ p.1 ∈ d.varIdxs ∧ p.2 = groupAt d.nlIdxs d.varIdxs p.1 := by
  rw [mem_enumSlots]
  constructor
  · rintro ⟨m, hm, hp1, hg⟩
    rw [buildTerm, List.length_map, List.length_range] at hm
    rw [buildTerm, List.get?_map, List.get?_range hm] at hg
    simp only [Option.map_some', Option.some.injEq] at hg
    by_cases hmem : m ∈ d.varIdxs
    · rw [if_pos hmem] at hg
      have hp1m : p.1 = m := by omega
      subst hp1m
      exact ⟨hm, hmem, by simpa using hg.symm⟩
    · rw [if_neg hmem] at hg
      simp at hg
  · rintro ⟨hlt, hmem, hval⟩
    refine ⟨p.1, ?_, by omega, ?_⟩
    · rw [buildTerm, List.length_map, List.length_range]
      exact hlt
    · rw [buildTerm, List.get?_map, List.get?_range hlt]
      simp [if_pos hmem, hval]

theorem groupAt_subset {nl var : List Nat} {j x : Nat}
    (hx : x ∈ groupAt nl var j) : x ∈ nl := by
  rw [groupAt, List.mem_filterMap] at hx
  obtain ⟨⟨v, f⟩, hmem, hval⟩ := hx
  by_cases hvj : v = j
  · simp only [if_pos hvj, Option.some.injEq] at hval
    subst hval
    exact (List.of_mem_zip hmem).2
  · simp [if_neg hvj] at hval

theorem groupAt_ne_nil {nl var : List Nat} (hlen : var.length ≤ nl.length)
    {j : Nat} (hj : j ∈ var) : groupAt nl var j ≠ [] := by
  induction var generalizing nl with
  | nil => simp at hj
  | cons v vs ih =>
    cases nl with
    | nil => simp at hlen
    | cons f fs =>
      rw [groupAt, List.zip_cons_cons, List.filterMap_cons]
      by_cases hvj : v = j
      · simp [if_pos hvj]
      · rw [if_neg hvj]
        rcases List.mem_cons.1 hj with h | h
        · exact absurd h.symm hvj
        · exact ih (by simpa using Nat.le_of_succ_le_succ hlen) h

theorem enumSlots_replicate_none (n i₀ : Nat) :
    enumSlots i₀ (List.replicate n (none : Slot)) = [] := by
  induction n generalizing i₀ with
  | zero => rfl
  | succ m ih => rw [List.replicate_succ, enumSlots, ih]

/-! Propagation of an out-of-range access (Python IndexError) to the top. -/

theorem applyFns_none {α : Type} [Mul α] (nls : List (α → α)) (y : List α)
    (k : Nat) (fns : List Nat) (hk : y.length ≤ k) (hne : fns ≠ [])
    (acc : α) : applyFns nls y k fns acc = none := by
  cases fns with
  | nil => exact absurd rfl hne
  | cons fi rest =>
    have hy : y.get? k = none := List.get?_eq_none.2 hk
    cases hnl : nls.get? fi with
    | none => simp only [applyFns, hnl, Option.bind_eq_bind, Option.none_bind]
    | some f =>
      simp only [applyFns, hnl, Option.bind_eq_bind, Option.some_bind, hy,
        Option.none_bind]

theorem evalSlots_none {α : Type} [Mul α] (nls : List (α → α)) (y : List α)
    (ps : List (Nat × List Nat)) (p₀ : Nat × List Nat) (hp : p₀ ∈ ps)
    (hk : y.length ≤ p₀.1) (hne : p₀.2 ≠ []) (acc : α) :
    evalSlots nls y ps acc = none := by
  induction ps generalizing acc with
  | nil => simp at hp
  | cons q rest ih =>
    obtain ⟨k, fns⟩ := q
    rcases List.mem_cons.1 hp with h | h
    · subst h
      simp only [evalSlots, applyFns_none nls y k fns hk hne acc,
        Option.bind_eq_bind, Option.none_bind]
    · cases hstep : applyFns nls y k fns acc with
      | none =>
        simp only [evalSlots, hstep, Option.bind_eq_bind, Option.none_bind]
      | some acc' =>
        simp only [evalSlots, hstep, Option.bind_eq_bind, Option.some_bind]
        exact ih h acc'

theorem evalAddends_none {α : Type} [Mul α] [One α] [Add α]
    (nls : List (α → α)) (y : List α) (tms : List Term) (tm₀ : Term)
    (htm : tm₀ ∈ tms) (hnone : evalTerm nls y tm₀ = none) (acc : α) :
    evalAddends nls y tms acc = none := by
  induction tms generalizing acc with
  | nil => simp at htm
  | cons tm rest ih =>
    rcases List.mem_cons.1 htm with h | h
    · subst h
      simp only [evalAddends, hnone, Option.bind_eq_bind, Option.none_bind]
    · cases hstep : evalTerm nls y tm with
      | none =>
        simp only [evalAddends, hstep, Option.bind_eq_bind, Option.none_bind]
      | some v =>
        simp only [evalAddends, hstep, Option.bind_eq_bind, Option.some_bind]
        exact ih h (acc + v)

theorem evalRange_none {α : Type} [Mul α] [One α] [Add α] [Zero α]
    (nls : List (α → α)) (eqs : List Equation) (y : List α)
    (idxs : List Nat) (i₀ : Nat) (hi : i₀ ∈ idxs) (eq₀ : Equation)
    (heq : eqs.get? i₀ = some eq₀) (hnone : evalEquation nls y eq₀ = none) :
    evalRange nls eqs y idxs = none := by
  induction idxs with
  | nil => simp at hi
  | cons j rest ih =>
    rcases List.mem_cons.1 hi with h | h
    · subst h
      simp only [evalRange, heq, Option.bind_eq_bind, Option.some_bind, hnone,
        Option.none_bind]
    · cases hg : eqs.get? j with
      | none =>
        simp only [evalRange, hg, Option.bind_eq_bind, Option.none_bind]
      | some eqj =>
        simp only [evalRange, hg, Option.bind_eq_bind, Option.some_bind]
        cases hv : evalEquation nls y eqj with
        | none => simp only [Option.none_bind]
        | some v =>
          simp only [Option.some_bind, ih h, Option.none_bind]

/-! Counting the non-identity slots of a generated Term. -/

theorem countP_isSome_buildTerm (nVars : Nat) (d : AddendDraw) :
    (buildTerm nVars d).countP (fun sl => sl.isSome) =
      ((List.range nVars).filter (fun j => j ∈ d.varIdxs)).length := by
  rw [buildTerm, List.countP_map, ← List.countP_eq_length_filter]
  apply List.countP_congr
  intro j _
  by_cases hj : j ∈ d.varIdxs <;> simp [Function.comp, hj]

theorem length_filter_mem_le (n : Nat) (v : List Nat) :
    ((List.range n).filter (fun j => j ∈ v)).length ≤ v.length := by
  have hnd : ((List.range n).filter (fun j => j ∈ v)).Nodup :=
    (List.nodup_range n).filter _
  have hsub : ((List.range n).filter (fun j => j ∈ v)) ⊆ v := by
    intro x hx
    have := (List.mem_filter.1 hx).2
    simpa using this
  exact (hnd.subperm hsub).length_le

/-! Projections of a constructed object, and draw-validity plumbing. -/

theorem make_equations {α : Type} (nVars nEqs maxSum maxMult : Nat)
    (nls : List (α → α)) (symNls? : Option (List String)) (ds : DrawStream) :
    (Equations.make nVars nEqs maxSum maxMult nls symNls? ds).equations =
      (List.range nEqs).map (fun i => buildEquation nVars (ds i)) := rfl

theorem make_sym_expr {α : Type} (nVars nEqs maxSum maxMult : Nat)
    (nls : List (α → α)) (symNls? : Option (List String)) (ds : DrawStream) :
    (Equations.make nVars nEqs maxSum maxMult nls symNls? ds).sym_expr =
      (List.range nEqs).map (fun i =>
        symEquation (resolveSymNls symNls? nls.length) nVars i (ds i)) := rfl

theorem make_n_eqs {α : Type} (nVars nEqs maxSum maxMult : Nat)
    (nls : List (α → α)) (symNls? : Option (List String)) (ds : DrawStream) :
    (Equations.make nVars nEqs maxSum maxMult nls symNls? ds).n_eqs = nEqs := rfl

theorem make_non_lins {α : Type} (nVars nEqs maxSum maxMult : Nat)
    (nls : List (α → α)) (symNls? : Option (List String)) (ds : DrawStream) :
    (Equations.make nVars nEqs maxSum maxMult nls symNls? ds).non_lins = nls := rfl

theorem get?_range_map {α : Type} (n : Nat) (g : Nat → α) {i : Nat}
    (hi : i < n) : ((List.range n).map g).get? i = some (g i) := by
  rw [List.get?_map, List.get?_range hi, Option.map_some']

/-- Bounds satisfied by every non-identity slot of a Term built from a
valid addend draw: its index is a drawn variable index (hence below
`n_vars`), its nonlinearity indices are drawn palette indices (hence below
`K`), and it is non-empty. -/
theorem valid_term_bounds {nVars maxMult K : Nat} {d : AddendDraw}
    (hd : d.Valid maxMult K nVars) {p : Nat × List Nat}
    (hp : p ∈ enumSlots 0 (buildTerm nVars d)) :
    p.1 < nVars ∧ (∀ fi ∈ p.2, fi < K) ∧ p.2 ≠ [] := by
  obtain ⟨hlen, _, _, hnl, _⟩ := hd
  obtain ⟨hlt, hmem, hval⟩ := mem_enumSlots_buildTerm.1 hp
  refine ⟨hlt, ?_, ?_⟩
  · intro fi hfi
    exact hnl fi (groupAt_subset (hval ▸ hfi))
  · rw [hval]
    exact groupAt_ne_nil (le_of_eq hlen.symm) hmem

/-- C1: for every generated equation set — any configuration and any
outcome of the seeded draws within the jax bounds — and every vector `y`
with `len(y) ≥ n_vars` (the embedded palette functions are total, so every
entry lies in every nonlinearity's domain), calling the object as `(t, y)`
returns a sequence of length `n_eqs` whose `i`-th entry equals, for
equation `i`, the sum over its Terms of the product over all non-identity
slots of the slot's nonlinearities each applied to `y[slot_index]` and
multiplied together in stored order — that is, `eqValue`. -/
theorem C1_call_computes_sum_of_products {α : Type} [Semiring α]
    (nVars nEqs maxSum maxMult : Nat) (nls : List (α → α))
    (symNls? : Option (List String)) (ds : DrawStream)
    (hv : DrawStream.Valid nEqs maxSum maxMult nls.length nVars ds)
    (t : α) (y : List α) (hy : nVars ≤ y.length) :
    (Equations.make nVars nEqs maxSum maxMult nls symNls? ds).call t y =
      some ((List.range nEqs).map (fun i =>
        eqValue nls y (buildEquation nVars (ds i)))) ∧
    ((List.range nEqs).map (fun i =>
      eqValue nls y (buildEquation nVars (ds i)))).length = nEqs := by
  constructor
  · simp only [Equations.call, make_non_lins, make_equations, make_n_eqs]
    apply evalRange_eq_some nls _ y _ (fun i => buildEquation nVars (ds i))
    · intro i hi
      exact get?_range_map nEqs _ (List.mem_range.1 hi)
    · intro i hi tm htm p hp
      have hvi := hv i (List.mem_range.1 hi)
      rw [buildEquation, List.mem_map] at htm
      obtain ⟨d, hd, rfl⟩ := htm
      obtain ⟨h1, h2, _⟩ := valid_term_bounds (hvi.2.2 d hd) hp
      exact ⟨lt_of_lt_of_le h1 hy, h2⟩
  · simp

/-- Witness for C1 at a concrete input: two variables, one equation, one
addend applying palette function 0 (squaring) to variable 0; at
`y = [3, 4]` the call returns `[9]`. -/
theorem C1_witness :
    (Equations.make 2 1 1 1 [fun x : Int => x * x] none
      (fun _ => [⟨[0], [0]⟩])).call 0 [3, 4] = some [9] := by
  have h := (C1_call_computes_sum_of_products 2 1 1 1 [fun x : Int => x * x]
    none (fun _ => [⟨[0], [0]⟩]) (by decide) 0 [3, 4] (by decide)).1
  rw [h]
  decide

/-- C10: evaluation reads `y` only at the indices of non-identity slots:
for every generated equation set and every vector `y`, if every
non-identity slot index occurring in the set is less than `len(y)`, then
the call succeeds — the hypothesis does not require `n_vars ≤ len(y)`, and
the witness below exercises exactly the case `len(y) < n_vars`. -/
theorem C10_reads_only_used_slots {α : Type} [Semiring α]
    (nVars nEqs maxSum maxMult : Nat) (nls : List (α → α))
    (symNls? : Option (List String)) (ds : DrawStream)
    (hv : DrawStream.Valid nEqs maxSum maxMult nls.length nVars ds)
    (t : α) (y : List α)
    (hy : ∀ eq ∈ (Equations.make nVars nEqs maxSum maxMult nls
        symNls? ds).equations, ∀ tm ∈ eq, ∀ p ∈ enumSlots 0 tm,
        p.1 < y.length) :
    ((Equations.make nVars nEqs maxSum maxMult nls symNls? ds).call
      t y).isSome := by
  rw [Equations.call, make_non_lins, make_equations, make_n_eqs,
    evalRange_eq_some nls _ y _ (fun i => buildEquation nVars (ds i))]
  · rfl
  · intro i hi
    exact get?_range_map nEqs _ (List.mem_range.1 hi)
  · intro i hi tm htm p hp
    have hvi := hv i (List.mem_range.1 hi)
    have heq : buildEquation nVars (ds i) ∈
        (Equations.make nVars nEqs maxSum maxMult nls symNls? ds).equations := by
      rw [make_equations]
      exact List.mem_map.2 ⟨i, hi, rfl⟩
    refine ⟨hy _ heq tm htm p hp, ?_⟩
    rw [buildEquation, List.mem_map] at htm
    obtain ⟨d, hd, rfl⟩ := htm
    exact (valid_term_bounds (hvi.2.2 d hd) hp).2.1

/-- Witness for C10: the set over two variables reading only variable 0,
evaluated at [3] with len(y) = 1 < n_vars = 2: the call succeeds. -/
theorem C10_witness :
    ((Equations.make 2 1 1 1 [fun x : Int => x * x] none
      (fun _ => [⟨[0], [0]⟩])).call 0 [3]).isSome := by
  exact C10_reads_only_used_slots 2 1 1 1 [fun x : Int => x * x] none
    (fun _ => [⟨[0], [0]⟩]) (by decide) 0 [3] (by decide)

/-- C4, amended: for every generated equation set and every vector `y`,
if some Term of the set has a non-identity slot whose index is at least
`len(y)`, then evaluation fails with the uncaught out-of-bounds access
(modelled by `none`), which propagates to the caller.  The original claim
— that *every* `y` with `len(y) < n_vars` makes evaluation fail — is
refuted by the counterexample below: a set that never reads the missing
indices succeeds. -/
theorem C4_amended_out_of_range_fails {α : Type} [Semiring α]
    (nVars nEqs maxSum maxMult : Nat) (nls : List (α → α))
    (symNls? : Option (List String)) (ds : DrawStream)
    (hv : DrawStream.Valid nEqs maxSum maxMult nls.length nVars ds)
    (t : α) (y : List α) (eq₀ : Equation)
    (heq : eq₀ ∈ (Equations.make nVars nEqs maxSum maxMult nls
      symNls? ds).equations)
    (tm₀ : Term) (htm : tm₀ ∈ eq₀) (p₀ : Nat × List Nat)
    (hp : p₀ ∈ enumSlots 0 tm₀) (hk : y.length ≤ p₀.1) :
    (Equations.make nVars nEqs maxSum maxMult nls symNls? ds).call t y =
      none := by
  rw [make_equations, List.mem_map] at heq
  obtain ⟨i, hi, rfl⟩ := heq
  have hvi := hv i (List.mem_range.1 hi)
  have hne : p₀.2 ≠ [] := by
    rw [buildEquation, List.mem_map] at htm
    obtain ⟨d, hd, rfl⟩ := htm
    exact (valid_term_bounds (hvi.2.2 d hd) hp).2.2
  have hterm : evalTerm nls y tm₀ = none :=
    evalSlots_none nls y (enumSlots 0 tm₀) p₀ hp hk hne 1
  have heqn : evalEquation nls y (buildEquation nVars (ds i)) = none := by
    rw [buildEquation] at htm ⊢
    exact evalAddends_none nls y _ tm₀ htm hterm 0
  rw [Equations.call, make_non_lins, make_equations, make_n_eqs]
  exact evalRange_none nls _ y _ i hi _ (get?_range_map nEqs _
    (List.mem_range.1 hi)) heqn

/-- Counterexample to C4 as stated: a generated set over `n_vars = 2`
whose single Term reads only variable 0, called with `y = [3]` of length
`1 < 2`: evaluation succeeds with `[9]` instead of failing. -/
theorem C4_counterexample :
    DrawStream.Valid 1 1 1 1 2 (fun _ => [⟨[0], [0]⟩]) ∧
    List.length [(3 : Int)] < 2 ∧
    (Equations.make 2 1 1 1 [fun x : Int => x * x] none
      (fun _ => [⟨[0], [0]⟩])).call 0 [3] = some [9] := by decide

/-- Witness for the amended C4: the Term reads variable 1, `y = [3]` has
length 1, so the access `y[1]` is out of bounds and the call fails. -/
theorem C4_witness :
    (Equations.make 2 1 1 1 [fun x : Int => x * x] none
      (fun _ => [⟨[0], [1]⟩])).call 0 [3] = none := by
  exact C4_amended_out_of_range_fails 2 1 1 1 [fun x : Int => x * x] none
    (fun _ => [⟨[0], [1]⟩]) (by decide) 0 [3]
    (buildEquation 2 [⟨[0], [1]⟩]) (by decide)
    (buildTerm 2 ⟨[0], [1]⟩) (by decide) (1, [0]) (by decide) (by decide)

/-- Counterexample to C2 as stated: with the draws of the concrete
scenario (addend-count 1, multiplicand-count 1, nonlinearity-index 0,
variable-index 0) the generated symbolic string is
"f_{1} = \text{nl}_1(y_{1})" — the code wraps every subscript in braces
(`f"f_{{{i+1}}} = "`, `f"(y_{{{j+1}}})"`) — so it differs from the claimed
"f_1 = \text{nl}_1(y_1)". -/
theorem C2_counterexample :
    (Equations.make 2 1 1 1 [Real.sin] none
      (fun _ => [⟨[0], [0]⟩])).sym_expr ≠
      ["f_1 = \\text\x7bnl\x7d_1(y_1)"] := by decide

/-- C2, amended: with `n_vars = 2`, `n_eqs = 1`, `max_sum_terms = 1`,
`max_mult_terms = 1`, `non_lins = [sin]` and draws selecting addend-count
1, multiplicand-count 1, nonlinearity-index 0, variable-index 0, the
object evaluates `(t, [y0, y1])` to `[sin y0]` for every `t, y0, y1`, and
its single symbolic string equals "f_{1} = \text{nl}_1(y_{1})" (or
"f_{1} = sin(y_{1})" when the symbolic name "sin" is supplied) — the
subscripts carry braces, unlike the claimed strings. -/
theorem C2_amended_concrete_scenario (t y0 y1 : ℝ) :
    (Equations.make 2 1 1 1 [Real.sin] none
      (fun _ => [⟨[0], [0]⟩])).call t [y0, y1] = some [Real.sin y0] ∧
    (Equations.make 2 1 1 1 [Real.sin] none
      (fun _ => [⟨[0], [0]⟩])).sym_expr =
      ["f_\x7b1\x7d = \\text\x7bnl\x7d_1(y_\x7b1\x7d)"] ∧
    (Equations.make 2 1 1 1 [Real.sin] (some ["sin"])
      (fun _ => [⟨[0], [0]⟩])).sym_expr =
      ["f_\x7b1\x7d = sin(y_\x7b1\x7d)"] := by
  refine ⟨?_, rfl, rfl⟩
  have h : (Equations.make 2 1 1 1 [Real.sin] none
      (fun _ => [⟨[0], [0]⟩])).call t [y0, y1] =
      some [0 + 1 * Real.sin y0] := rfl
  rw [h, one_mul, zero_add]

/-- C3: the claim is refuted by the code — `Equations.__init__` performs
no configuration validation at all (no ConfigurationError exists in the
repository), so an invalid configuration is not rejected.  At the failing
input `n_eqs = 0` (claim requires n_eqs ≥ 1) construction completes
normally and leaves a fully observable object with an empty equation set;
the spec's stated intent ("fail fast with a ConfigurationError before any
random draws") is therefore not implemented. -/
theorem C3_no_config_validation :
    (Equations.make 2 0 1 1 [fun x : Int => x] none
      (fun _ => [])).equations = [] ∧
    (Equations.make 2 0 1 1 [fun x : Int => x] none
      (fun _ => [])).sym_expr = [] ∧
    (Equations.make 2 0 1 1 [fun x : Int => x] none
      (fun _ => [])).n_eqs = 0 ∧
    (Equations.make 2 0 1 1 [fun x : Int => x] none
      (fun _ => [])).n_vars = 2 := ⟨rfl, rfl, rfl, rfl⟩

/-- C5: for every configuration and draw outcome, the constructed object
satisfies `len(equations) == len(sym_expr) == n_eqs`, index `i` in both
parallel sequences is built from the draws of the same equation `i`
(as `__getitem__` returns the pair), and every Term of every equation has
exactly `n_vars` slots (it starts as `np.ones(n_vars)`). -/
theorem C5_parallel_arrays {α : Type} (nVars nEqs maxSum maxMult : Nat)
    (nls : List (α → α)) (symNls? : Option (List String)) (ds : DrawStream)
    (i : Nat) (hi : i < nEqs) :
    (Equations.make nVars nEqs maxSum maxMult nls symNls?
      ds).equations.length = nEqs ∧
    (Equations.make nVars nEqs maxSum maxMult nls symNls?
      ds).sym_expr.length = nEqs ∧
    (∀ eq ∈ (Equations.make nVars nEqs maxSum maxMult nls symNls?
      ds).equations, ∀ tm ∈ eq, tm.length = nVars) ∧
    (Equations.make nVars nEqs maxSum maxMult nls symNls? ds).getItem i =
      (some (buildEquation nVars (ds i)),
       some (symEquation (resolveSymNls symNls? nls.length) nVars i
         (ds i))) := by
  refine ⟨?_, ?_, ?_, ?_⟩
  · rw [make_equations, List.length_map, List.length_range]
  · rw [make_sym_expr, List.length_map, List.length_range]
  · intro eq heq tm htm
    rw [make_equations, List.mem_map] at heq
    obtain ⟨j, hj, rfl⟩ := heq
    rw [buildEquation, List.mem_map] at htm
    obtain ⟨d, hd, rfl⟩ := htm
    rw [buildTerm, List.length_map, List.length_range]
  · rw [Equations.getItem, make_equations, make_sym_expr,
      get?_range_map nEqs _ hi, get?_range_map nEqs _ hi]

/-- Witness for C5 at a concrete configuration and index 0. -/
theorem C5_witness :
    0 < 1 ∧
    ((Equations.make 2 1 1 1 [fun x : Int => x * x] none
      (fun _ => [⟨[0], [0]⟩])).equations.length = 1 ∧
    (Equations.make 2 1 1 1 [fun x : Int => x * x] none
      (fun _ => [⟨[0], [0]⟩])).sym_expr.length = 1 ∧
    (∀ eq ∈ (Equations.make 2 1 1 1 [fun x : Int => x * x] none
      (fun _ => [⟨[0], [0]⟩])).equations, ∀ tm ∈ eq, tm.length = 2) ∧
    (Equations.make 2 1 1 1 [fun x : Int => x * x] none
      (fun _ => [⟨[0], [0]⟩])).getItem 0 =
      (some (buildEquation 2 ((fun _ => [⟨[0], [0]⟩] : DrawStream) 0)),
       some (symEquation (resolveSymNls none
         [fun x : Int => x * x].length) 2 0
         ((fun _ => [⟨[0], [0]⟩] : DrawStream) 0)))) :=
  ⟨by decide, C5_parallel_arrays 2 1 1 1 [fun x : Int => x * x] none
    (fun _ => [⟨[0], [0]⟩]) 0 (by decide)⟩

/-- C6: for every configuration and valid draw outcome, every generated
equation has between 1 and `max_sum_terms` addends inclusive, and every
addend has at most `max_mult_terms` non-identity slots (the distinct drawn
variable indices are at most the `n_mult_terms ≤ max_mult_terms` drawn
pairs). -/
theorem C6_bounds {α : Type} (nVars nEqs maxSum maxMult : Nat)
    (nls : List (α → α)) (symNls? : Option (List String)) (ds : DrawStream)
    (hv : DrawStream.Valid nEqs maxSum maxMult nls.length nVars ds) :
    ∀ eq ∈ (Equations.make nVars nEqs maxSum maxMult nls symNls?
      ds).equations,
      (1 ≤ eq.length ∧ eq.length ≤ maxSum) ∧
      ∀ tm ∈ eq, tm.countP (fun sl => sl.isSome) ≤ maxMult := by
  intro eq heq
  rw [make_equations, List.mem_map] at heq
  obtain ⟨i, hi, rfl⟩ := heq
  obtain ⟨h1, h2, h3⟩ := hv i (List.mem_range.1 hi)
  refine ⟨⟨?_, ?_⟩, ?_⟩
  · rw [buildEquation, List.length_map]
    exact h1
  · rw [buildEquation, List.length_map]
    exact h2
  · intro tm htm
    rw [buildEquation, List.mem_map] at htm
    obtain ⟨d, hd, rfl⟩ := htm
    obtain ⟨_, _, hm2, _, _⟩ := h3 d hd
    calc (buildTerm nVars d).countP (fun sl => sl.isSome)
        = ((List.range nVars).filter (fun j => j ∈ d.varIdxs)).length :=
          countP_isSome_buildTerm nVars d
      _ ≤ d.varIdxs.length := length_filter_mem_le nVars d.varIdxs
      _ ≤ maxMult := hm2

/-- Witness for C6: two addends over three variables, the first with two
colliding variable draws. -/
theorem C6_witness :
    DrawStream.Valid 1 2 3 1 3 (fun _ => [⟨[0, 0, 0], [1, 2, 1]⟩, ⟨[0], [0]⟩]) ∧
    ∀ eq ∈ (Equations.make 3 1 2 3 [fun x : Int => x + 1] none
      (fun _ => [⟨[0, 0, 0], [1, 2, 1]⟩, ⟨[0], [0]⟩])).equations,
      (1 ≤ eq.length ∧ eq.length ≤ 2) ∧
      ∀ tm ∈ eq, tm.countP (fun sl => sl.isSome) ≤ 3 :=
  ⟨by decide, C6_bounds 3 1 2 3 [fun x : Int => x + 1] none
    (fun _ => [⟨[0, 0, 0], [1, 2, 1]⟩, ⟨[0], [0]⟩]) (by decide)⟩

/-- C7: a Term whose slots are all the identity marker `1.0` evaluates to
exactly 1 — `func_idxs` is empty and the accumulator `addend = 1` is never
multiplied — and an equation consisting of one all-identity Term evaluates
to exactly 1.0 for every state vector `y` (and every `t`). -/
theorem C7_all_identity_term {α : Type} [Semiring α] (nls : List (α → α))
    (y : List α) (n : Nat) (t : α) (nVars maxSum maxMult : Nat)
    (symNls sym : List String) :
    evalTerm nls y (List.replicate n none) = some 1 ∧
    (Equations.mk nVars 1 maxSum maxMult nls symNls
      [[List.replicate n none]] sym).call t y = some [1] := by
  have hterm : evalTerm nls y (List.replicate n none) = some 1 := by
    rw [evalTerm, enumSlots_replicate_none, evalSlots]
  refine ⟨hterm, ?_⟩
  show evalRange nls [[List.replicate n none]] y [0] = some [1]
  have heq : evalEquation nls y [List.replicate n none] = some (0 + 1) := by
    rw [evalEquation, evalAddends, hterm]
    simp only [Option.bind_eq_bind, Option.some_bind, evalAddends]
  simp only [evalRange, List.get?_cons_zero, Option.bind_eq_bind,
    Option.some_bind, heq, zero_add]
  rfl

/-- C8: determinism — `random.key(seed)` and the subsequent splits and
`randint` draws are pure functions of the seed, so the whole draw stream
is a function of the seed (`streamOf`); two independent constructions from
the same configuration and seed consume identical draws and produce
structurally identical equation sets: same addend counts, same slot
contents in every Term, and same symbolic strings. -/
theorem C8_determinism {α : Type} (nVars nEqs maxSum maxMult : Nat)
    (nls : List (α → α)) (symNls? : Option (List String))
    (streamOf : Nat → DrawStream) (seed : Nat) (s₁ s₂ : Equations α)
    (h₁ : s₁ = Equations.make nVars nEqs maxSum maxMult nls symNls?
      (streamOf seed))
    (h₂ : s₂ = Equations.make nVars nEqs maxSum maxMult nls symNls?
      (streamOf seed)) :
    s₁.equations = s₂.equations ∧
    s₁.equations.map List.length = s₂.equations.map List.length ∧
    s₁.sym_expr = s₂.sym_expr := by
  subst h₁
  subst h₂
  exact ⟨rfl, rfl, rfl⟩

/-- Witness for C8: two constructions from seed 42 through the same
seed-to-stream function. -/
theorem C8_witness :
    (Equations.make 2 1 1 1 [fun x : Int => x * x] none
      ((fun _ => (fun _ => [⟨[0], [0]⟩] : DrawStream)) 42)).equations =
    (Equations.make 2 1 1 1 [fun x : Int => x * x] none
      ((fun _ => (fun _ => [⟨[0], [0]⟩] : DrawStream)) 42)).equations ∧
    (Equations.make 2 1 1 1 [fun x : Int => x * x] none
      ((fun _ => (fun _ => [⟨[0], [0]⟩] : DrawStream)) 42)).equations.map
        List.length =
    (Equations.make 2 1 1 1 [fun x : Int => x * x] none
      ((fun _ => (fun _ => [⟨[0], [0]⟩] : DrawStream)) 42)).equations.map
        List.length ∧
    (Equations.make 2 1 1 1 [fun x : Int => x * x] none
      ((fun _ => (fun _ => [⟨[0], [0]⟩] : DrawStream)) 42)).sym_expr =
    (Equations.make 2 1 1 1 [fun x : Int => x * x] none
      ((fun _ => (fun _ => [⟨[0], [0]⟩] : DrawStream)) 42)).sym_expr :=
  C8_determinism 2 1 1 1 [fun x : Int => x * x] none
    (fun _ => (fun _ => [⟨[0], [0]⟩] : DrawStream)) 42 _ _ rfl rfl

/-- C9: evaluation is pure.  The body of `__call__` binds only local
variables (`f`, `eq`, `addend`, `func_idxs`) and assigns no attribute, so
the embedding types it as a function of the state returning only the
result: the equation set, the symbolic strings and all configuration
fields are left unchanged.  The result depends only on the fields
`n_eqs`, `equations` and `non_lins`: in particular it is independent of
the value of `t` (received for solver-signature compatibility, never
used) and of any prior calls (there is no internal state to mutate). -/
theorem C9_call_pure {α : Type} [Mul α] [One α] [Add α] [Zero α]
    (s₁ s₂ : Equations α) (t₁ t₂ : α) (y : List α)
    (h₁ : s₁.n_eqs = s₂.n_eqs) (h₂ : s₁.equations = s₂.equations)
    (h₃ : s₁.non_lins = s₂.non_lins) :
    s₁.call t₁ y = s₂.call t₂ y := by
  rw [Equations.call, Equations.call, h₁, h₂, h₃]

/-- Witness for C9: the same object called with two different values of
`t` gives the same result. -/
theorem C9_witness :
    (Equations.make 2 1 1 1 [fun x : Int => x * x] none
      (fun _ => [⟨[0], [0]⟩])).call 0 [3, 4] =
    (Equations.make 2 1 1 1 [fun x : Int => x * x] none
      (fun _ => [⟨[0], [0]⟩])).call 17 [3, 4] :=
  C9_call_pure _ _ 0 17 [3, 4] rfl rfl rfl

end Datagen
